import Mathlib

/-!
Verification of the QuickHull component in `src/zad2/convexHull.cpp`.

The C++ program is embedded shallowly: the mutable `std::vector<Point>` is a
`List Point` threaded through the functions, `std::swap` on two cells becomes
`swapP`, the three `for` loops become folds over their exact index sequences,
and the recursive `quickHull` becomes a fuel-indexed structural recursion
(`quickHullFuel`) where the fuel `right - left` is exactly the depth the
C++ recursion needs, so it never runs out (see `quickHullGen_step`).

Coordinates are modelled as exact rationals.  The control flow of `quickHull`
branches only on order comparisons of stored coordinate values (`<` on
`double`); no arithmetic result ever feeds a branch or the output, so the
rational model is faithful to the C++ execution on every input whose decimal
coordinates are finitely representable, and order-isomorphic in general.
The only floating-point arithmetic in the program happens inside `distance`
(line 24), whose value is discarded; its exact numerator and the radicand of
its denominator are modelled by `distNum` and `distDenSq` below.
-/

/-- Embeds `struct Point` (lines 11-13): a 2D point with coordinates `x`, `y`. -/
structure Point where
  x : ℚ
  y : ℚ
deriving DecidableEq, Repr

/-- Default value used only to totalise list indexing; every index the program
actually dereferences is proved to be in bounds. -/
def pzero : Point := ⟨0, 0⟩

/-- Reads `points[i]`. -/
def getP (ps : List Point) (i : ℕ) : Point := ps.getD i pzero

/-- Embeds `std::swap(points[i], points[j])` (lines 71, 77, 83). -/
def swapP (ps : List Point) (i j : ℕ) : List Point :=
  (ps.set i (getP ps j)).set j (getP ps i)

/-- Numerator `|(b.x-a.x)*(a.y-p.y) - (a.x-p.x)*(b.y-a.y)|` of the quotient
computed by `distance` (line 24), evaluated exactly. -/
def distNum (a b p : Point) : ℚ :=
  |(b.x - a.x) * (a.y - p.y) - (a.x - p.x) * (b.y - a.y)|

/-- Radicand `(b.x-a.x)*(b.x-a.x) + (b.y-a.y)*(b.y-a.y)` under the `sqrt` in
the denominator of `distance` (line 24), evaluated exactly.  The IEEE
denominator is `sqrt` of this value: it is `0` exactly when this is `0`. -/
def distDenSq (a b : Point) : ℚ :=
  (b.x - a.x) * (b.x - a.x) + (b.y - a.y) * (b.y - a.y)

/-- Index sequence of the search loop in `findMaxDistancePoint` (line 39):
`i` runs over the WHOLE buffer `0 .. points.size()-1`, not over the current
recursion range. -/
def fmdpLoopIndices (ps : List Point) : List ℕ := List.range ps.length

/-- Embeds `findMaxDistancePoint` (lines 35-48).  The C++ loop compares
`dist = num/sqrt(den)` against the running maximum (initialised to `-1`).
For one call the denominator is the same constant for every `i`.  When it is
positive, the IEEE comparisons order exactly as the exact numerators do, and
the first comparison (`dist > -1`) always succeeds, which is what is computed
here.  When it is zero, the numerator is also zero for every `i` (the segment
endpoints coincide), every `dist` is `0.0/0.0 = NaN`, every IEEE comparison
`dist > maxDist` is false, and the function returns the initial `-1`; the
leading guard reproduces that. -/
def findMaxDistancePoint (ps : List Point) (a b : ℕ) : Int :=
  if distDenSq (getP ps a) (getP ps b) = 0 then -1
  else
    ((fmdpLoopIndices ps).foldl
      (fun st i =>
        if st.1 < distNum (getP ps a) (getP ps b) (getP ps i) then
          (distNum (getP ps a) (getP ps b) (getP ps i), (i : Int))
        else st)
      ((-1 : ℚ), (-1 : Int))).2

/-- Index sequence of the pivot-selection loop (line 65): `i` from `left`
to `right` inclusive. -/
def refLoopIndices (l r : ℕ) : List ℕ := List.range' l (r + 1 - l)

/-- One iteration of the loop body at lines 66-68. -/
def refStep (ps : List Point) (ref i : ℕ) : ℕ :=
  if (getP ps i).x < (getP ps ref).x then i else ref

/-- Embeds lines 63-69: `referentialIndex`, the first index in
`[left, right]` holding a point of minimal x-coordinate. -/
def referentialIndex (ps : List Point) (l r : ℕ) : ℕ :=
  (refLoopIndices l r).foldl (refStep ps) l

/-- Index sequence of the Lomuto partition loop (line 75): `i` from `left`
to `right - 1` inclusive. -/
def partLoopIndices (l r : ℕ) : List ℕ := List.range' l (r - l)

/-- One iteration of the partition loop body (lines 76-79); the state is the
pair (buffer, `splitIndex`). -/
def partitionStep (r : ℕ) (st : List Point × ℕ) (i : ℕ) : List Point × ℕ :=
  if (getP st.1 i).x < (getP st.1 r).x then (swapP st.1 i st.2, st.2 + 1) else st

/-- Embeds lines 73-80: the Lomuto pass, started with `splitIndex = left`,
returning the reordered buffer and the final `splitIndex`. -/
def partitionRange (ps : List Point) (l r : ℕ) : List Point × ℕ :=
  (partLoopIndices l r).foldl (partitionStep r) (ps, l)

/-- Embeds `quickHull` (lines 58-94), parametrised by the farthest-point
search `f` (invoked once per non-base call at line 89, result unused) and by
a fuel bounding the recursion depth.  The result carries the buffer, the
accumulated hull (`convexHull.push_back` at line 86 becomes an append), and a
trace logging `(left, right)` for each non-base call, recorded at the point
where the call does its work.  Indices are naturals; the only subtraction is
`splitIndex - 1` for the first recursive sub-range, and its truncation at `0`
is unobservable because a call with `left = 0 = splitIndex` receives the
range `[0, -1]` in C++ and `[0, 0]` here, and both are base cases that return
immediately without touching anything. -/
def quickHullFuel (f : List Point → ℕ → ℕ → Int) :
    ℕ → List Point → ℕ → ℕ → List Point → List (ℕ × ℕ) →
    List Point × List Point × List (ℕ × ℕ)
  | 0, ps, _, _, hull, calls => (ps, hull, calls)
  | fuel + 1, ps, l, r, hull, calls =>
    if ps.isEmpty = true ∨ r ≤ l then (ps, hull, calls)
    else
      let ps1 := swapP ps (referentialIndex ps l r) r
      let pr := partitionRange ps1 l r
      let ps3 := swapP pr.1 r pr.2
      let hull1 := hull ++ [getP ps3 pr.2]
      let _maxDistancePoint := f ps3 l pr.2
      let t1 := quickHullFuel f fuel ps3 l (pr.2 - 1) hull1 (calls ++ [(l, r)])
      quickHullFuel f fuel t1.1 (pr.2 + 1) r t1.2.1 t1.2.2

/-- The recursion of lines 58-94 with the fuel `right - left`, which is
always sufficient: a non-base call on `[l, r]` passes fuel `r - l - 1` to
both children, the first child `[l, splitIndex - 1]` is a base case (because
`splitIndex = l`, see `quickHullGen_step`), and the second child
`[l + 1, r]` needs exactly `r - l - 1`. -/
def quickHullGen (f : List Point → ℕ → ℕ → Int) (ps : List Point) (l r : ℕ)
    (hull : List Point) (calls : List (ℕ × ℕ)) :
    List Point × List Point × List (ℕ × ℕ) :=
  quickHullFuel f (r - l) ps l r hull calls

/-- Embeds the `quickHull` entry point as called by the program: the farthest
point search is `findMaxDistancePoint`, and the result is the pair
(final buffer, final hull). -/
def quickHull (ps : List Point) (l r : ℕ) (hull : List Point) :
    List Point × List Point :=
  ((quickHullGen findMaxDistancePoint ps l r hull []).1,
   (quickHullGen findMaxDistancePoint ps l r hull []).2.1)

/-- Trace of the `(left, right)` ranges of all non-base recursive calls made
by `quickHull`; each such call invokes `findMaxDistancePoint` exactly once
(line 89). -/
def quickHullCalls (ps : List Point) (l r : ℕ) : List (ℕ × ℕ) :=
  (quickHullGen findMaxDistancePoint ps l r [] []).2.2

/-- The hull produced by the invocation in `main` (line 117):
`quickHull(points, 0, n - 1, convexHull)` on the full range. -/
def runQuickHull (ps : List Point) : List Point :=
  (quickHull ps 0 (ps.length - 1) []).2

/-- Embeds `main` (lines 102-125).  `main` reads `n` and then `n` points,
never inspects the stream state, computes and prints the hull
unconditionally, and returns `0`.  A negative `n` makes the read loop body
unreachable (`i < n` fails at once) and an unparsable count leaves `n = 0`
(C++11 `operator>>` on failure), so both paths run the hull computation on an
empty buffer.  The result is the pair (printed hull, exit status); no error
branch exists in the source. -/
def mainRun (n : Int) (input : List Point) : List Point × Int :=
  (runQuickHull (input.take n.toNat), 0)

/-- Triangle input used by the spec's boundary scenario: three distinct,
non-collinear points. -/
def tri3 : List Point := [⟨0, 0⟩, ⟨1, 0⟩, ⟨0, 1⟩]

/-- The rational one-half, in the kernel-reducible `mkRat` form; see
`half_eq_one_div_two`. -/
def half : ℚ := mkRat 1 2

/-- Square-plus-centroid input of the spec's `n = 5` scenario. -/
def sq5 : List Point := [⟨0, 0⟩, ⟨0, 1⟩, ⟨1, 1⟩, ⟨1, 0⟩, ⟨half, half⟩]

lemma half_eq_one_div_two : half = 1 / 2 := by
  rw [half, Rat.mkRat_eq_divInt]
  norm_num [Rat.divInt_eq_div]

lemma length_swapP (ps : List Point) (i j : ℕ) : (swapP ps i j).length = ps.length := by
  simp [swapP]

lemma getD_set_eq (l : List Point) (j : ℕ) (b d : Point) (h : j < l.length) :
    (l.set j b).getD j d = b := by
  simp [List.getD_eq_getElem?_getD, List.getElem?_set_self h]

lemma getD_set_ne (l : List Point) (i k : ℕ) (b d : Point) (h : i ≠ k) :
    (l.set i b).getD k d = l.getD k d := by
  simp [List.getD_eq_getElem?_getD, List.getElem?_set_ne h]

lemma getP_swapP (ps : List Point) (i j k : ℕ) (hi : i < ps.length) (hj : j < ps.length) :
    getP (swapP ps i j) k =
      if k = j then getP ps i else if k = i then getP ps j else getP ps k := by
  unfold swapP getP
  by_cases h1 : k = j
  · subst h1
    rw [getD_set_eq _ _ _ _ (by simpa using hj)]
    simp
  · rw [getD_set_ne _ _ _ _ _ (fun hh => h1 hh.symm)]
    by_cases h2 : k = i
    · subst h2
      rw [getD_set_eq _ _ _ _ hi]
      simp [h1]
    · rw [getD_set_ne _ _ _ _ _ (fun hh => h2 hh.symm)]
      simp [h1, h2]

lemma getP_mem (ps : List Point) (i : ℕ) (h : i < ps.length) : getP ps i ∈ ps := by
  have : getP ps i = ps.get ⟨i, h⟩ := by
    simp [getP, List.getD_eq_getElem?_getD, List.getElem?_eq_getElem h]
  rw [this]
  exact List.get_mem ps i h

lemma mem_of_mem_swapP (ps : List Point) (i j : ℕ) (hi : i < ps.length)
    (hj : j < ps.length) (x : Point) (hx : x ∈ swapP ps i j) : x ∈ ps := by
  rcases List.mem_or_eq_of_mem_set hx with h1 | h1
  · rcases List.mem_or_eq_of_mem_set h1 with h2 | h2
    · exact h2
    · rw [h2]; exact getP_mem ps j hj
  · rw [h1]; exact getP_mem ps i hi

lemma refFold_spec (ps : List Point) (L : List ℕ) :
    ∀ r0 : ℕ,
      (L.foldl (refStep ps) r0 = r0 ∨ L.foldl (refStep ps) r0 ∈ L) ∧
      (getP ps (L.foldl (refStep ps) r0)).x ≤ (getP ps r0).x ∧
      ∀ i ∈ L, (getP ps (L.foldl (refStep ps) r0)).x ≤ (getP ps i).x := by
  induction L with
  | nil => intro r0; exact ⟨Or.inl rfl, le_refl _, by simp⟩
  | cons a L ih =>
    intro r0
    obtain ⟨h1, h2, h3⟩ := ih (refStep ps r0 a)
    simp only [List.foldl_cons]
    refine ⟨?_, ?_, ?_⟩
    · rcases h1 with h | h
      · rw [h]
        unfold refStep
        split
        · exact Or.inr (List.mem_cons_self a L)
        · exact Or.inl rfl
      · exact Or.inr (List.mem_cons_of_mem a h)
    · refine le_trans h2 ?_
      unfold refStep
      split
      · next hlt => exact le_of_lt hlt
      · exact le_refl _
    · intro i hi
      rcases List.mem_cons.mp hi with rfl | hiL
      · refine le_trans h2 ?_
        unfold refStep
        split
        · exact le_refl _
        · next hnlt => exact le_of_not_lt hnlt
      · exact h3 i hiL

lemma referentialIndex_bounds (ps : List Point) (l r : ℕ) (h : l ≤ r) :
    l ≤ referentialIndex ps l r ∧ referentialIndex ps l r ≤ r := by
  obtain ⟨h1, -, -⟩ := refFold_spec ps (refLoopIndices l r) l
  have hiff : ∀ m : ℕ, m ∈ refLoopIndices l r → l ≤ m ∧ m ≤ r := by
    intro m hm
    rw [refLoopIndices] at hm
    have := List.mem_range'_1.mp hm
    omega
  unfold referentialIndex
  rcases h1 with h2 | h2
  · rw [h2]
    exact ⟨le_refl l, h⟩
  · have := hiff _ h2
    omega

lemma referentialIndex_min (ps : List Point) (l r i : ℕ) (hl : l ≤ i) (hi : i ≤ r) :
    (getP ps (referentialIndex ps l r)).x ≤ (getP ps i).x := by
  obtain ⟨-, -, h3⟩ := refFold_spec ps (refLoopIndices l r) l
  unfold referentialIndex
  exact h3 i (by simp only [refLoopIndices, List.mem_range'_1]; omega)

lemma partFold_noop (r : ℕ) (ps : List Point) (s : ℕ) (L : List ℕ)
    (h : ∀ i ∈ L, ¬ (getP ps i).x < (getP ps r).x) :
    L.foldl (partitionStep r) (ps, s) = (ps, s) := by
  induction L generalizing s with
  | nil => rfl
  | cons a L ih =>
    have ha : partitionStep r (ps, s) a = (ps, s) := by
      unfold partitionStep
      simp only
      rw [if_neg (h a (List.mem_cons_self a L))]
    rw [List.foldl_cons, ha]
    exact ih s (fun i hi => h i (List.mem_cons_of_mem a hi))

lemma quickHullFuel_stop (f : List Point → ℕ → ℕ → Int) (fuel : ℕ) (ps : List Point)
    (l r : ℕ) (hull : List Point) (calls : List (ℕ × ℕ)) (h : r ≤ l) :
    quickHullFuel f fuel ps l r hull calls = (ps, hull, calls) := by
  cases fuel with
  | zero => rfl
  | succ n => simp [quickHullFuel, h]

lemma quickHullGen_step (f : List Point → ℕ → ℕ → Int) (ps : List Point) (l r : ℕ)
    (hull : List Point) (calls : List (ℕ × ℕ)) (hlr : l < r) (hr : r < ps.length) :
    quickHullGen f ps l r hull calls =
      quickHullGen f (swapP (swapP ps (referentialIndex ps l r) r) r l) (l + 1) r
        (hull ++ [getP (swapP (swapP ps (referentialIndex ps l r) r) r l) l])
        (calls ++ [(l, r)]) := by
  obtain ⟨hb1, hb2⟩ := referentialIndex_bounds ps l r (Nat.le_of_lt hlr)
  have hreflen : referentialIndex ps l r < ps.length := Nat.lt_of_le_of_lt hb2 hr
  have hnoop : partitionRange (swapP ps (referentialIndex ps l r) r) l r =
      (swapP ps (referentialIndex ps l r) r, l) := by
    unfold partitionRange
    apply partFold_noop
    intro i hi
    have hi' : l ≤ i ∧ i < r := by
      have := List.mem_range'_1.mp (by simpa [partLoopIndices] using hi)
      omega
    have hgr : getP (swapP ps (referentialIndex ps l r) r) r =
        getP ps (referentialIndex ps l r) := by
      rw [getP_swapP ps _ r r hreflen hr]
      simp
    have hgi : getP (swapP ps (referentialIndex ps l r) r) i =
        if i = referentialIndex ps l r then getP ps r else getP ps i := by
      rw [getP_swapP ps _ r i hreflen hr]
      rw [if_neg (by omega : ¬ i = r)]
    rw [hgr, hgi]
    by_cases hcase : i = referentialIndex ps l r
    · rw [if_pos hcase]
      exact not_lt.mpr (referentialIndex_min ps l r r (Nat.le_of_lt hlr) (le_refl r))
    · rw [if_neg hcase]
      exact not_lt.mpr (referentialIndex_min ps l r i hi'.1 (Nat.le_of_lt hi'.2))
  have hnoop1 : (partitionRange (swapP ps (referentialIndex ps l r) r) l r).1 =
      swapP ps (referentialIndex ps l r) r := by rw [hnoop]
  have hnoop2 : (partitionRange (swapP ps (referentialIndex ps l r) r) l r).2 = l := by
    rw [hnoop]
  have hne : ps.isEmpty = false := by
    cases ps with
    | nil => simp at hr
    | cons a t => rfl
  have hcond : ¬ (ps.isEmpty = true ∨ r ≤ l) := by
    simp only [hne, Bool.false_eq_true, false_or]
    omega
  have hfuel : r - l = (r - (l + 1)) + 1 := by omega
  show quickHullFuel f (r - l) ps l r hull calls = _
  rw [hfuel]
  simp only [quickHullFuel]
  rw [if_neg hcond]
  rw [hnoop1, hnoop2]
  rw [quickHullFuel_stop f (r - (l + 1)) _ l (l - 1) _ _ (by omega)]
  rfl

lemma qh_spec (k : ℕ) (f : List Point → ℕ → ℕ → Int) :
    ∀ (ps : List Point) (l r : ℕ) (hull : List Point) (calls : List (ℕ × ℕ)),
      r - l = k → r < ps.length →
      (quickHullGen f ps l r hull calls).2.1.length = hull.length + (r - l) ∧
      (∀ p ∈ (quickHullGen f ps l r hull calls).2.1, p ∈ hull ∨ p ∈ ps) ∧
      (quickHullGen f ps l r hull calls).1.length = ps.length := by
  induction k with
  | zero =>
    intro ps l r hull calls hk hr
    have hbase : quickHullGen f ps l r hull calls = (ps, hull, calls) :=
      quickHullFuel_stop f (r - l) ps l r hull calls (by omega)
    rw [hbase]
    exact ⟨by simp [hk ▸ (rfl : r - l = r - l), hk], fun p hp => Or.inl hp, rfl⟩
  | succ n ih =>
    intro ps l r hull calls hk hr
    have hlr : l < r := by omega
    rw [quickHullGen_step f ps l r hull calls hlr hr]
    have hlen1 : (swapP ps (referentialIndex ps l r) r).length = ps.length :=
      length_swapP ps _ r
    have hlen2 : (swapP (swapP ps (referentialIndex ps l r) r) r l).length = ps.length := by
      rw [length_swapP, length_swapP]
    have hsub : ∀ x ∈ swapP (swapP ps (referentialIndex ps l r) r) r l, x ∈ ps := by
      intro x hx
      have hb2 := (referentialIndex_bounds ps l r (Nat.le_of_lt hlr)).2
      have h1 : x ∈ swapP ps (referentialIndex ps l r) r :=
        mem_of_mem_swapP _ r l (by rw [hlen1]; exact hr) (by rw [hlen1]; omega) x hx
      exact mem_of_mem_swapP ps _ r (Nat.lt_of_le_of_lt hb2 hr) hr x h1
    obtain ⟨ha, hb, hc⟩ := ih (swapP (swapP ps (referentialIndex ps l r) r) r l) (l + 1) r
      (hull ++ [getP (swapP (swapP ps (referentialIndex ps l r) r) r l) l])
      (calls ++ [(l, r)]) (by omega) (by rw [hlen2]; exact hr)
    refine ⟨?_, ?_, ?_⟩
    · rw [ha]
      simp only [List.length_append, List.length_singleton]
      omega
    · intro p hp
      rcases hb p hp with hmem | hmem
      · rcases List.mem_append.mp hmem with hmem2 | hmem2
        · exact Or.inl hmem2
        · have hpl : p = getP (swapP (swapP ps (referentialIndex ps l r) r) r l) l := by
            simpa using hmem2
          refine Or.inr ?_
          rw [hpl]
          exact hsub _ (getP_mem _ l (by omega))
      · exact Or.inr (hsub p hmem)
    · rw [hc, hlen2]

lemma quickHullFuel_f_irrel (fuel : ℕ) :
    ∀ (f g : List Point → ℕ → ℕ → Int) (ps : List Point) (l r : ℕ)
      (hull : List Point) (calls : List (ℕ × ℕ)),
      quickHullFuel f fuel ps l r hull calls = quickHullFuel g fuel ps l r hull calls := by
  induction fuel with
  | zero => intro f g ps l r hull calls; rfl
  | succ n ih =>
    intro f g ps l r hull calls
    simp only [quickHullFuel]
    by_cases h : ps.isEmpty = true ∨ r ≤ l
    · simp only [if_pos h]
    · simp only [if_neg h]
      simp only [ih f g]

/-- Claim C1: for the 3-point triangle `(0,0), (1,0), (0,1)` the program's
hull is `[(0,0), (0,1)]` — only 2 points, and the hull vertex `(1,0)` is
missing, contradicting the spec's requirement (and the function's own
documentation) that a triangle yields exactly its 3 points. -/
theorem triangle_eval_misses_vertex :
    runQuickHull tri3 = [⟨0, 0⟩, ⟨0, 1⟩] ∧
      Point.mk 1 0 ∉ runQuickHull tri3 ∧ (runQuickHull tri3).length ≠ 3 := by
  decide

set_option maxRecDepth 100000 in
/-- Claim C2: on the square-plus-centroid input the program's hull output
contains the interior point `(0.5, 0.5)`, contradicting the spec's scenario
that the hull excludes it. -/
theorem square_centroid_eval_includes_interior :
    half = 1 / 2 ∧
      runQuickHull sq5 = [⟨0, 0⟩, ⟨0, 1⟩, ⟨half, half⟩, ⟨1, 0⟩] ∧
      Point.mk half half ∈ runQuickHull sq5 :=
  ⟨half_eq_one_div_two, by decide, by decide⟩

/-- Claim C9: `main` has no error path: the exit status is `0` for every
count `n` and every input, including the negative count `n = -3`, for which
the hull output phase still runs (on an empty buffer) instead of a
`MalformedInput` report with a non-zero exit. -/
theorem main_no_error_path_exit_zero :
    (∀ (n : Int) (input : List Point), (mainRun n input).2 = 0) ∧
      mainRun (-3) [] = ([], 0) :=
  ⟨fun _ _ => rfl, rfl⟩

/-- Claim C3: invoked on the full range `[0, n-1]` of a buffer of `n ≥ 1`
points, `quickHull` appends exactly `n - 1` points to the hull result:
the pivot of each non-base call is the minimum-x point of its range, the
strict `<` of the Lomuto pass therefore never fires and `splitIndex = left`,
so the left recursion is empty and each call on a range of size `s ≥ 2`
emits one point and recurses on a range of size `s - 1`. -/
theorem quickHull_full_range_emits_n_sub_one (ps : List Point) (h : 1 ≤ ps.length) :
    (runQuickHull ps).length = ps.length - 1 := by
  obtain ⟨ha, -, -⟩ :=
    qh_spec (ps.length - 1) findMaxDistancePoint ps 0 (ps.length - 1) [] []
      (by omega) (by omega)
  simpa [runQuickHull, quickHull] using ha

theorem quickHull_full_range_emits_n_sub_one_witness :
    1 ≤ tri3.length ∧ (runQuickHull tri3).length = tri3.length - 1 :=
  ⟨by decide, quickHull_full_range_emits_n_sub_one tri3 (by decide)⟩

/-- Claim C5: for `n = 0` (empty buffer) and `n = 1` the base case
`points.empty() || left >= right` fires immediately, and the hull result is
empty; nothing in this path signals an error. -/
theorem small_input_empty_hull (ps : List Point) (h : ps.length ≤ 1) :
    runQuickHull ps = [] := by
  have hstop : quickHullGen findMaxDistancePoint ps 0 (ps.length - 1) [] [] =
      (ps, [], []) :=
    quickHullFuel_stop findMaxDistancePoint (ps.length - 1 - 0) ps 0 (ps.length - 1)
      [] [] (by omega)
  simp [runQuickHull, quickHull, hstop]

theorem small_input_empty_hull_witness :
    ([⟨5, 7⟩] : List Point).length ≤ 1 ∧ runQuickHull [(⟨5, 7⟩ : Point)] = [] :=
  ⟨by decide, small_input_empty_hull [⟨5, 7⟩] (by decide)⟩

/-- Claim C6: every point in the hull result is, by coordinate value, a
member of the input buffer: the emitted point `points[splitIndex]` is a cell
of the buffer, and the buffer is only ever permuted by swaps. -/
theorem hull_points_from_input (ps : List Point) (p : Point)
    (h : p ∈ runQuickHull ps) : p ∈ ps := by
  rcases Nat.eq_zero_or_pos ps.length with h0 | h1
  · obtain rfl := List.length_eq_zero.mp h0
    simp [runQuickHull, quickHull, quickHullGen, quickHullFuel] at h
  · obtain ⟨-, hb, -⟩ :=
      qh_spec (ps.length - 1) findMaxDistancePoint ps 0 (ps.length - 1) [] []
        (by omega) (by omega)
    have := hb p (by simpa [runQuickHull, quickHull] using h)
    simpa using this

theorem hull_points_from_input_witness :
    Point.mk 0 0 ∈ runQuickHull tri3 ∧ Point.mk 0 0 ∈ tri3 :=
  ⟨by decide, hull_points_from_input tri3 ⟨0, 0⟩ (by decide)⟩

/-- Claim C7: the value returned by the farthest-point search (invoked once
per non-base call at line 89) has no influence whatsoever on the result:
the final buffer, the hull output, and the trace of recursive-call ranges
are identical for any two search functions, in particular for
`findMaxDistancePoint` and for any stub. -/
theorem farthest_point_result_unused (f g : List Point → ℕ → ℕ → Int)
    (ps : List Point) (l r : ℕ) (hull : List Point) (calls : List (ℕ × ℕ)) :
    quickHullGen f ps l r hull calls = quickHullGen g ps l r hull calls :=
  quickHullFuel_f_irrel (r - l) f g ps l r hull calls

/-- Claim C4, counterexample: on the 3-point input `tri3` the recursion
performs the call on the sub-range `[1, 2]` (it is in the call trace), and
the farthest-point search that this call invokes scans the loop indices
`0 .. size-1` of the WHOLE buffer, which include the index `0` lying outside
`[1, 2]` — so a point outside the sub-range is examined by that call. -/
theorem range_invariant_counterexample :
    (1, 2) ∈ quickHullCalls tri3 0 2 ∧ 0 ∈ fmdpLoopIndices tri3 ∧ ¬ ((1 : ℕ) ≤ 0) := by
  decide

/-- Claim C4, amended: during a recursive call on `[left, right]`, the
pivot-selection loop (lines 65-69) and the partition loop (lines 75-80)
examine only indices inside `[left, right]`; the farthest-point search
invoked by the call, however, examines every index of the whole buffer,
including indices outside `[left, right]`. -/
theorem range_invariant_amended (ps : List Point) (l r : ℕ) (h : l < r) :
    (∀ i ∈ refLoopIndices l r, l ≤ i ∧ i ≤ r) ∧
    (∀ i ∈ partLoopIndices l r, l ≤ i ∧ i ≤ r) ∧
    (∀ i, i < ps.length → i ∈ fmdpLoopIndices ps) := by
  refine ⟨?_, ?_, ?_⟩
  · intro i hi
    rw [refLoopIndices] at hi
    have := List.mem_range'_1.mp hi
    omega
  · intro i hi
    rw [partLoopIndices] at hi
    have := List.mem_range'_1.mp hi
    omega
  · intro i hi
    rw [fmdpLoopIndices]
    exact List.mem_range.mpr hi

theorem range_invariant_amended_witness :
    (1 : ℕ) < 2 ∧
      ((∀ i ∈ refLoopIndices 1 2, 1 ≤ i ∧ i ≤ 2) ∧
        (∀ i ∈ partLoopIndices 1 2, 1 ≤ i ∧ i ≤ 2) ∧
        (∀ i, i < tri3.length → i ∈ fmdpLoopIndices tri3)) :=
  ⟨by decide, range_invariant_amended tri3 1 2 (by decide)⟩

/-- Claim C8: when `distance` is called with coinciding segment endpoints
(`a == b`), the numerator of the quotient at line 24 evaluates to `0` and the
radicand of its denominator evaluates to `0`, so the IEEE computation is
`|0| / sqrt(0) = 0.0 / 0.0 = NaN`, produced silently: the source has no
`DegenerateSegment` check and no Euclidean-distance fallback.  Note that
`quickHull` triggers exactly this case on every non-base call, since it
passes `left` and `splitIndex` to the search and `splitIndex = left`. -/
theorem distance_zero_segment_is_zero_over_zero (a p : Point) :
    distNum a a p = 0 ∧ distDenSq a a = 0 := by
  constructor
  · simp [distNum]
  · simp [distDenSq]

/-- Claim C10: the computation is deterministic — it is a pure function of
the input point sequence, so two runs on the same input produce the same
hull output sequence. -/
theorem quickHull_deterministic (ps qs : List Point) (h : ps = qs) :
    runQuickHull ps = runQuickHull qs := by
  rw [h]

theorem quickHull_deterministic_witness :
    sq5 = sq5 ∧ runQuickHull sq5 = runQuickHull sq5 :=
  ⟨rfl, quickHull_deterministic sq5 sq5 rfl⟩
